import Mathlib

/-!
Shallow embedding of the ZwiftPower profile-change detection pipeline
(`find_profile_changes.py`, `anonymise.py`): alias records, height
backfill, adjacent-pair delta detection, threshold filtering, report
formatting, sorting and anonymisation, together with theorems about them.
Python ints are modelled as `Int`, Python lists as `List`, dict-shaped
records as structures, fallible operations as `Option`.
-/

/-- One historical snapshot of a rider profile (an alias row). -/
structure Alias where
  month : String
  day : Int
  hour : Int
  minute : Int
  name : String
  weight : Int
  height : Int
deriving DecidableEq

/-- The numeric alias fields a caller may track for delta detection. -/
inductive FieldName where
  | day
  | hour
  | minute
  | weight
  | height
deriving DecidableEq

/-- Dynamic field access `alias[f]` for the numeric fields. -/
def Alias.get (a : Alias) : FieldName → Int
  | FieldName.day => a.day
  | FieldName.hour => a.hour
  | FieldName.minute => a.minute
  | FieldName.weight => a.weight
  | FieldName.height => a.height

/-- A detected change between two adjacent alias records: `from` is the
older record, `to` the newer one, `deltas` the per-field differences. -/
structure Delta where
  from_ : Alias
  to_ : Alias
  deltas : List (FieldName × Int)
deriving DecidableEq

/-- The dict comprehension in `get_deltas`:
`{f: last[f] - alias[f] for f in fields if last[f] - alias[f] != 0}`. -/
def delta_fields (last al : Alias) (fields : List FieldName) : List (FieldName × Int) :=
  fields.filterMap (fun f =>
    let d := last.get f - al.get f
    if d ≠ 0 then some (f, d) else none)

/-- The loop body of `get_deltas` once `last` holds the previous (newer)
alias: each later element is compared against the one before it. -/
def get_deltas_go (fields : List FieldName) (last : Alias) : List Alias → List Delta
  | [] => []
  | a :: rest =>
    (let ds := delta_fields last a fields
     if ds = [] then [] else [{ from_ := a, to_ := last, deltas := ds }])
      ++ get_deltas_go fields a rest

/-- `get_deltas(aliases, fields)`: walk adjacent pairs of the
most-recent-first sequence, yielding a Delta for each pair with at least
one nonzero tracked difference. -/
def get_deltas (aliases : List Alias) (fields : List FieldName) : List Delta :=
  match aliases with
  | [] => []
  | a :: rest => get_deltas_go fields a rest

/-- `{**a, 'height': h}` -/
def set_height (a : Alias) (h : Int) : Alias := { a with height := h }

/-- `backfill_heights(aliases)`: replace the heights in the oldest
contiguous run of zero-height entries with the oldest nonzero height;
if every height is zero (or the list is empty) return the input. -/
def backfill_heights (aliases : List Alias) : List Alias :=
  let rev := aliases.reverse
  match rev.find? (fun a => a.height != 0) with
  | none => aliases
  | some anchor =>
    let backfilled :=
      ((rev.takeWhile (fun a => a.height == 0)).map
        (fun a => set_height a anchor.height)).reverse
    let dflt := (rev.dropWhile (fun a => a.height == 0)).reverse
    dflt ++ backfilled

/-- `filter_deltas(deltas, retain=...)`: keep within each Delta only the
fields whose retain predicate holds (fields without a predicate are kept),
then drop Deltas whose mapping became empty. -/
def filter_deltas (deltas : List Delta) (retain : FieldName → Option (Int → Bool)) :
    List Delta :=
  (deltas.map (fun d =>
    { d with deltas := d.deltas.filter (fun kv =>
        match retain kv.1 with
        | some p => p kv.2
        | none => true) })).filter (fun d => d.deltas ≠ [])

/-- The fixed retain policy `{'height': lambda x: abs(x) >= 5}`. -/
def height_retain : FieldName → Option (Int → Bool)
  | FieldName.height => some (fun x => decide (5 ≤ x.natAbs))
  | _ => none

/-- `get_suspicious_deltas(aliases)` -/
def get_suspicious_deltas (aliases : List Alias) : List Delta :=
  filter_deltas (get_deltas aliases [FieldName.height]) height_retain

/-- Python `str.capitalize`: first character upper-cased, rest lower-cased. -/
def str_capitalize (s : String) : String :=
  match s.data with
  | [] => ""
  | c :: cs => String.mk (c.toUpper :: cs.map Char.toLower)

/-- Python `f"{n:02}"`: zero-pad a single nonnegative digit to width two. -/
def pad2 (n : Int) : String :=
  if 0 ≤ n ∧ n < 10 then "0" ++ toString n else toString n

/-- `format_date(o)`: `f"{month.capitalize()} {day} {hour:02}:{minute:02}"`. -/
def format_date (o : Alias) : String :=
  str_capitalize o.month ++ " " ++ toString o.day ++ " "
    ++ pad2 o.hour ++ ":" ++ pad2 o.minute

/-- One entry of `suspicious_profile_changes`. -/
structure Change where
  date : String
  height_change : Int
deriving DecidableEq

/-- One rider as streamed into `find_profile_changes.py`. -/
structure Profile where
  zwiftid : Int
  zwiftpower_points : Int
  aliases : List Alias
deriving DecidableEq

/-- The per-rider report emitted by the detection stage. -/
structure ProfileReport where
  zwiftid : Int
  zwiftpower_points : Int
  suspicious_profile_changes : List Change
deriving DecidableEq

/-- `describe_suspicious_delta(delta)`. The `height` key is always present
in `delta['deltas']` for deltas produced with `height` tracked, so the
`getD 0` default is never reached in the pipeline. -/
def describe_suspicious_delta (delta : Delta) : Change :=
  { date := format_date delta.to_,
    height_change := (List.lookup FieldName.height delta.deltas).getD 0 }

/-- `describe_suspicious_profile(profile)`: `None` when no suspicious
deltas survive the filter. -/
def describe_suspicious_profile (profile : Profile) : Option ProfileReport :=
  let sus := get_suspicious_deltas (backfill_heights profile.aliases)
  if sus = [] then none
  else some
    { zwiftid := profile.zwiftid,
      zwiftpower_points := profile.zwiftpower_points,
      suspicious_profile_changes := sus.map describe_suspicious_delta }

/-- Python `s[a:b]` on code points (for `0 ≤ a ≤ b`). -/
def py_slice (s : String) (a b : Nat) : String :=
  String.mk ((s.data.take b).drop a)

/-- Python `s[:n]` on code points. -/
def py_take (s : String) (n : Nat) : String :=
  String.mk (s.data.take n)

/-- Digit run for `py_int?`: nonempty, all decimal digits. -/
def parse_digits (cs : List Char) : Option Nat :=
  if cs.isEmpty then none
  else if cs.all Char.isDigit then
    some (cs.foldl (fun n c => 10 * n + (c.toNat - 48)) 0)
  else none

/-- Python `int(s)`: strip surrounding whitespace, optional sign, then a
nonempty run of decimal digits; anything else raises `ValueError`
(modelled as `none`). -/
def py_int? (s : String) : Option Int :=
  let cs := ((s.data.dropWhile Char.isWhitespace).reverse.dropWhile
    Char.isWhitespace).reverse
  match cs with
  | '-' :: rest => (parse_digits rest).map (fun n => -(n : Int))
  | '+' :: rest => (parse_digits rest).map (fun n => (n : Int))
  | _ => (parse_digits cs).map (fun n => (n : Int))

/-- Python `round(p / 50)` for an integer `p`: round half to even. -/
def round_div_50 (p : Int) : Int :=
  let f := Int.fdiv p 50
  let r := Int.fmod p 50
  if r < 25 then f
  else if 25 < r then f + 1
  else if f % 2 = 0 then f else f + 1

/-- An anonymised report: the identifier slot holds `null`. -/
structure AnonReport where
  zwiftid : Option Int
  zwiftpower_points : Int
  suspicious_profile_changes : List Change
deriving DecidableEq

/-- The date bucketing in `anonymise.py`:
`pc['date'][:7] + ('am' if int(pc['date'][7:9]) < 12 else 'pm')`. -/
def anonymise_date (date : String) : Option String :=
  (py_int? (py_slice date 7 9)).map (fun h =>
    py_take date 7 ++ (if h < 12 then "am" else "pm"))

/-- Anonymise one entry of `suspicious_profile_changes`. -/
def anonymise_change (c : Change) : Option Change :=
  (anonymise_date c.date).map (fun d =>
    { date := d, height_change := c.height_change })

/-- The list comprehension over `suspicious_profile_changes`: the first
date that fails to parse aborts the whole record. -/
def anonymise_changes : List Change → Option (List Change)
  | [] => some []
  | c :: cs =>
    match anonymise_change c with
    | none => none
    | some c2 =>
      match anonymise_changes cs with
      | none => none
      | some cs2 => some (c2 :: cs2)

/-- The per-record body of `anonymise.py`'s `main` loop. -/
def anonymise_desc (r : ProfileReport) : Option AnonReport :=
  (anonymise_changes r.suspicious_profile_changes).map (fun chs =>
    { zwiftid := none,
      zwiftpower_points := 50 * round_div_50 r.zwiftpower_points,
      suspicious_profile_changes := chs })

/-- The `months` lookup table: `{jan: 1, feb: 2, ..., dec: 12}`. -/
def months : List (String × Nat) :=
  [("jan", 1), ("feb", 2), ("mar", 3), ("apr", 4), ("may", 5), ("jun", 6),
   ("jul", 7), ("aug", 8), ("sep", 9), ("oct", 10), ("nov", 11), ("dec", 12)]

/-- `numeric_month(month)`: `months[month]`; a missing key raises
`KeyError` (modelled as `none`). -/
def numeric_month (month : String) : Option Nat :=
  List.lookup month months

/-- An alias record after month normalisation (`month` is now an int). -/
structure NumAlias where
  month : Nat
  day : Int
  hour : Int
  minute : Int
  name : String
  weight : Int
  height : Int
deriving DecidableEq

/-- `{**alias, 'month': numeric_month(alias['month'])}` -/
def numeric_month_record (a : Alias) : Option NumAlias :=
  (numeric_month a.month).map (fun n =>
    { month := n, day := a.day, hour := a.hour, minute := a.minute,
      name := a.name, weight := a.weight, height := a.height })

/-- `numeric_months(aliases)`: the first unknown month aborts the whole
list comprehension with `KeyError`. -/
def numeric_months : List Alias → Option (List NumAlias)
  | [] => some []
  | a :: rest =>
    match numeric_month_record a with
    | none => none
    | some b =>
      match numeric_months rest with
      | none => none
      | some bs => some (b :: bs)

/-- The sort key `lambda d: (d['zwiftpower_points'], d['zwiftid'])`,
compared as Python compares tuples: lexicographically. -/
def desc_key_le (a b : ProfileReport) : Bool :=
  decide (a.zwiftpower_points < b.zwiftpower_points
    ∨ (a.zwiftpower_points = b.zwiftpower_points ∧ a.zwiftid ≤ b.zwiftid))

/-- `sorted(descs, key=...)`: Python's sort is stable; a stable sort is
exactly `List.mergeSort` with the non-strict key comparison. -/
def sort_descs (descs : List ProfileReport) : List ProfileReport :=
  descs.mergeSort desc_key_le

/-! ### Concrete records used by several concrete theorems -/

/-- Alias `{month: "jan", day: 15, hour: 0, minute: 28, height: 187}`. -/
def alias_jan15 : Alias := ⟨"jan", 15, 0, 28, "", 82, 187⟩

/-- Alias `{month: "jan", day: 10, hour: 2, minute: 28, height: 120}`. -/
def alias_jan10b : Alias := ⟨"jan", 10, 2, 28, "", 82, 120⟩

/-- Alias `{month: "jan", day: 10, hour: 0, minute: 28, height: 120}`. -/
def alias_jan10a : Alias := ⟨"jan", 10, 0, 28, "", 82, 120⟩

/-- Alias `{month: "jan", day: 1, hour: 0, minute: 28, height: 187}`. -/
def alias_jan1 : Alias := ⟨"jan", 1, 0, 28, "", 82, 187⟩

/-- The four-alias profile of the end-to-end scenario. -/
def profile_e2e : Profile :=
  ⟨123, 500, [alias_jan15, alias_jan10b, alias_jan10a, alias_jan1]⟩

/-- C2: the pipeline on the four-alias input yields two changes, but the
second is dated `"Jan 10 00:28"` — the `to` record of the `-67` delta is
the older of the two Jan-10 snapshots — not `"Jan 10 02:28"` as claimed. -/
theorem C2_counterexample :
    (describe_suspicious_profile profile_e2e).map
        (fun r => r.suspicious_profile_changes)
      = some [⟨"Jan 15 00:28", 67⟩, ⟨"Jan 10 00:28", -67⟩]
    ∧ ([⟨"Jan 15 00:28", 67⟩, ⟨"Jan 10 00:28", -67⟩] : List Change)
      ≠ [⟨"Jan 15 00:28", 67⟩, ⟨"Jan 10 02:28", -67⟩] := by
  decide

/-- C2 (amended): the full pipeline (backfill, height delta detection,
threshold `|delta| >= 5`, report formatting) on the four-alias input
produces exactly two suspicious changes, in order
`{date: "Jan 15 00:28", height_change: 67}` then
`{date: "Jan 10 00:28", height_change: -67}`; the zero-height-delta pair
contributes nothing. -/
theorem C2_end_to_end :
    describe_suspicious_profile profile_e2e
      = some { zwiftid := 123, zwiftpower_points := 500,
               suspicious_profile_changes :=
                 [⟨"Jan 15 00:28", 67⟩, ⟨"Jan 10 00:28", -67⟩] } := by
  decide

/-- A two-alias profile whose suspicious change is dated with a
single-digit day. -/
def profile_digit : Profile :=
  ⟨77, 300, [⟨"jan", 1, 0, 28, "", 82, 187⟩, ⟨"dec", 20, 0, 28, "", 82, 120⟩]⟩

/-- The report the detection stage emits for `profile_digit`. -/
def report_digit : ProfileReport :=
  ⟨77, 300, [⟨"Jan 1 00:28", 67⟩]⟩

/-- C10: the detection stage emits a valid report dated `"Jan 1 00:28"`
(single-digit day is not zero-padded by `format_date`); on it the
anonymiser's fixed-position slice `date[7:9]` reads `"0:"`, `int()` fails,
and no anonymised record is produced. -/
theorem C10_anonymiser_crash :
    describe_suspicious_profile profile_digit = some report_digit
    ∧ py_slice "Jan 1 00:28" 7 9 = "0:"
    ∧ py_int? "0:" = none
    ∧ anonymise_desc report_digit = none := by
  decide

/-- C6: month lookup is case-sensitive in the code: the dict holds only
lowercase keys, so `"JAN"` raises `KeyError` (modelled as `none`) instead
of mapping to `1` as the case-insensitivity claim requires. -/
theorem C6_counterexample :
    numeric_month "JAN" = none ∧ numeric_month "JAN" ≠ some 1 := by
  decide

/-- C6 (amended): the month normaliser maps exactly the twelve lowercase
abbreviations to 1–12 via the fixed table, fails with `KeyError`
(modelled as `none`) for every other token — including uppercase variants
such as `"JAN"` — and `numeric_months` produces new records whose fields
other than the month are unchanged. -/
theorem C6_month_normaliser :
    (numeric_month "jan" = some 1 ∧ numeric_month "feb" = some 2
      ∧ numeric_month "mar" = some 3 ∧ numeric_month "apr" = some 4
      ∧ numeric_month "may" = some 5 ∧ numeric_month "jun" = some 6
      ∧ numeric_month "jul" = some 7 ∧ numeric_month "aug" = some 8
      ∧ numeric_month "sep" = some 9 ∧ numeric_month "oct" = some 10
      ∧ numeric_month "nov" = some 11 ∧ numeric_month "dec" = some 12)
    ∧ (∀ m : String, m ∉ months.map Prod.fst → numeric_month m = none)
    ∧ numeric_month "JAN" = none
    ∧ (∀ aliases out, numeric_months aliases = some out →
        List.Forall₂ (fun (a : Alias) (b : NumAlias) =>
          numeric_month a.month = some b.month ∧ b.day = a.day
            ∧ b.hour = a.hour ∧ b.minute = a.minute ∧ b.name = a.name
            ∧ b.weight = a.weight ∧ b.height = a.height) aliases out) := by
  refine ⟨by decide, ?_, by decide, ?_⟩
  · intro m hm
    simp only [months, List.map, List.mem_cons, List.not_mem_nil, or_false,
      not_or] at hm
    obtain ⟨h1, h2, h3, h4, h5, h6, h7, h8, h9, h10, h11, h12⟩ := hm
    simp [numeric_month, months, List.lookup, beq_eq_false_iff_ne.mpr,
      h1, h2, h3, h4, h5, h6, h7, h8, h9, h10, h11, h12]
  · intro aliases
    induction aliases with
    | nil =>
      intro out h
      simp only [numeric_months, Option.some.injEq] at h
      simp [← h]
    | cons a rest ih =>
      intro out h
      simp only [numeric_months] at h
      cases hr : numeric_month_record a with
      | none => simp [hr] at h
      | some b =>
        rw [hr] at h
        cases hrest : numeric_months rest with
        | none => rw [hrest] at h; exact absurd h (by simp)
        | some bs =>
          rw [hrest] at h
          simp only [Option.some.injEq] at h
          cases h
          refine List.Forall₂.cons ?_ (ih bs hrest)
          simp only [numeric_month_record, Option.map_eq_some'] at hr
          obtain ⟨n, hn, hb⟩ := hr
          cases hb
          exact ⟨hn, rfl, rfl, rfl, rfl, rfl, rfl⟩

/-- C6 witness: the amended theorem applied to a concrete unknown token
and a concrete singleton alias list. -/
theorem C6_month_normaliser_witness :
    numeric_month "January" = none
    ∧ List.Forall₂ (fun (a : Alias) (b : NumAlias) =>
        numeric_month a.month = some b.month ∧ b.day = a.day
          ∧ b.hour = a.hour ∧ b.minute = a.minute ∧ b.name = a.name
          ∧ b.weight = a.weight ∧ b.height = a.height)
        [alias_jan15] [⟨1, 15, 0, 28, "", 82, 187⟩] :=
  ⟨C6_month_normaliser.2.1 "January" (by decide),
   C6_month_normaliser.2.2.2 [alias_jan15] [⟨1, 15, 0, 28, "", 82, 187⟩]
     (by decide)⟩

/-- A string is its list of code points. -/
theorem string_mk_data (s : String) : String.mk s.data = s := rfl

/-- `s[:n]` of an append whose left part has exactly `n` code points. -/
theorem py_take_left (p q : String) (n : Nat) (hp : p.length = n) :
    py_take (p ++ q) n = p := by
  have hp' : p.data.length = n := hp
  simp only [py_take, String.data_append, List.take_left' hp']

/-- `s[7:9]` of a string whose first 7 code points form `p` and whose next
2 form `q`. -/
theorem py_slice_79 (p q r : String) (hp : p.length = 7) (hq : q.length = 2) :
    py_slice (p ++ (q ++ r)) 7 9 = q := by
  have hp' : p.data.length = 7 := hp
  have hq' : q.data.length = 2 := hq
  simp only [py_slice, String.data_append]
  rw [← List.append_assoc, show (9 : Nat) = (p.data ++ q.data).length + 0 by
    simp [hp', hq'], List.take_append, List.take_zero, List.append_nil,
    List.drop_left' hp']

/-- Erroring date bucketing aborts the record; a successful pass maps the
changes one by one. -/
theorem anonymise_changes_forall₂ (cs : List Change) (out : List Change)
    (h : anonymise_changes cs = some out) :
    List.Forall₂ (fun c c2 => anonymise_change c = some c2) cs out := by
  induction cs generalizing out with
  | nil =>
    simp only [anonymise_changes, Option.some.injEq] at h
    simp [← h]
  | cons c rest ih =>
    simp only [anonymise_changes] at h
    cases hc : anonymise_change c with
    | none => rw [hc] at h; exact absurd h (by simp)
    | some c2 =>
      rw [hc] at h
      cases hrest : anonymise_changes rest with
      | none => rw [hrest] at h; exact absurd h (by simp)
      | some cs2 =>
        rw [hrest] at h
        simp only [Option.some.injEq] at h
        cases h
        exact List.Forall₂.cons hc (ih cs2 hrest)

/-- C4: on the claim's own example the anonymiser produces `"Feb 18 am"`
— `date[:7]` keeps the space after the day — not `"Feb 18am"` as the
"month and day followed immediately by the bucket" wording requires. -/
theorem C4_counterexample :
    anonymise_desc ⟨1, 137, [⟨"Feb 18 09:05", 67⟩]⟩
      = some ⟨none, 150, [⟨"Feb 18 am", 67⟩]⟩
    ∧ ("Feb 18 am" : String) ≠ "Feb 18am" := by
  decide

/-- C4 (amended): for every report record whose change dates have a
three-letter month and a two-digit day, the anonymiser nulls the
identifier unconditionally, rounds points to a nearest multiple of 50
(137 to 150, 112 to 100), rewrites each date `"<Mon> <DD> <HH>:<MM>"` to
`"<Mon> <DD> "` followed by the am/pm bucket (the space after the day is
kept), with `am` exactly when the hour is strictly below 12, and passes
`height_change` through unchanged. -/
theorem C4_anonymiser :
    (∀ (mon dd hh mm : String) (h hc : Int),
      mon.length = 3 → dd.length = 2 → hh.length = 2 → py_int? hh = some h →
      anonymise_change ⟨mon ++ " " ++ dd ++ " " ++ hh ++ ":" ++ mm, hc⟩
        = some ⟨mon ++ " " ++ dd ++ " " ++ (if h < 12 then "am" else "pm"),
                hc⟩)
    ∧ (∀ r out, anonymise_desc r = some out →
        out.zwiftid = none
        ∧ out.zwiftpower_points = 50 * round_div_50 r.zwiftpower_points
        ∧ List.Forall₂ (fun c c2 => anonymise_change c = some c2)
            r.suspicious_profile_changes out.suspicious_profile_changes)
    ∧ (∀ p : Int, |p - 50 * round_div_50 p| ≤ 25)
    ∧ 50 * round_div_50 137 = 150 ∧ 50 * round_div_50 112 = 100 := by
  refine ⟨?_, ?_, ?_, by decide, by decide⟩
  · intro mon dd hh mm h hc hmon hdd hhh hint
    have hsp : (" " : String).length = 1 := rfl
    have hp : (mon ++ " " ++ dd ++ " ").length = 7 := by
      simp only [String.length_append, hmon, hdd, hsp]
    simp only [anonymise_change, anonymise_date]
    rw [String.append_assoc, String.append_assoc,
      py_slice_79 (mon ++ " " ++ dd ++ " ") hh (":" ++ mm) hp hhh, hint,
      Option.map_some', Option.map_some',
      py_take_left (mon ++ " " ++ dd ++ " ") (hh ++ (":" ++ mm)) 7 hp]
  · intro r out h
    simp only [anonymise_desc, Option.map_eq_some'] at h
    obtain ⟨chs, hchs, hout⟩ := h
    cases hout
    exact ⟨rfl, rfl, anonymise_changes_forall₂ _ _ hchs⟩
  · intro p
    have hid := Int.fdiv_add_fmod p 50
    have h0 : 0 ≤ Int.fmod p 50 := Int.fmod_nonneg' p (by norm_num)
    have h50 : Int.fmod p 50 < 50 := Int.fmod_lt_of_pos p (by norm_num)
    unfold round_div_50
    dsimp only
    split_ifs with h1 h2 h3 <;> rw [abs_le] <;> constructor <;> omega

/-- C4 witness: the amended theorem applied to the concrete date
`"Feb 18 09:05"` and to a concrete record. -/
theorem C4_anonymiser_witness :
    anonymise_change ⟨"Feb" ++ " " ++ "18" ++ " " ++ "09" ++ ":" ++ "05", 3⟩
      = some ⟨"Feb" ++ " " ++ "18" ++ " "
          ++ (if (9 : Int) < 12 then "am" else "pm"), 3⟩
    ∧ |(137 : Int) - 50 * round_div_50 137| ≤ 25 :=
  ⟨C4_anonymiser.1 "Feb" "18" "09" "05" 9 3 (by decide) (by decide)
      (by decide) (by decide),
   C4_anonymiser.2.2.1 137⟩

/-- The Delta an adjacent pair `(newer, older)` contributes: nothing when
no tracked field changed, else `from` = older, `to` = newer. -/
def pair_delta (fields : List FieldName) (p : Alias × Alias) : Option Delta :=
  let ds := delta_fields p.1 p.2 fields
  if ds = [] then none else some { from_ := p.2, to_ := p.1, deltas := ds }

/-- The generator loop is the per-adjacent-pair map over the zipped list. -/
theorem get_deltas_go_eq (fields : List FieldName) (last : Alias)
    (rest : List Alias) :
    get_deltas_go fields last rest
      = ((last :: rest).zip rest).filterMap (pair_delta fields) := by
  induction rest generalizing last with
  | nil => rfl
  | cons b rest ih =>
    simp only [get_deltas_go, List.zip_cons_cons, List.filterMap_cons, ih]
    by_cases h : delta_fields last b fields = []
    · simp [pair_delta, h]
    · simp [pair_delta, h]

/-- `get_deltas` emits exactly one optional Delta per adjacent pair of
the input sequence, in sequence order. -/
theorem get_deltas_eq (aliases : List Alias) (fields : List FieldName) :
    get_deltas aliases fields
      = (aliases.zip aliases.tail).filterMap (pair_delta fields) := by
  cases aliases with
  | nil => rfl
  | cons a rest =>
    simp only [get_deltas, List.tail_cons]
    exact get_deltas_go_eq fields a rest

/-- Membership in the per-pair difference mapping: tracked, equal to
`newer - older`, and nonzero. -/
theorem mem_delta_fields {newer older : Alias} {fields : List FieldName}
    {f : FieldName} {v : Int} :
    (f, v) ∈ delta_fields newer older fields
      ↔ f ∈ fields ∧ v = newer.get f - older.get f ∧ v ≠ 0 := by
  simp only [delta_fields, List.mem_filterMap]
  constructor
  · rintro ⟨x, hxmem, hx⟩
    by_cases hne : newer.get x - older.get x ≠ 0
    · rw [if_pos hne] at hx
      simp only [Option.some.injEq, Prod.mk.injEq] at hx
      obtain ⟨rfl, rfl⟩ := hx
      exact ⟨hxmem, rfl, hne⟩
    · rw [if_neg hne] at hx
      exact absurd hx (by simp)
  · rintro ⟨hmem, rfl, hne⟩
    exact ⟨f, hmem, by rw [if_pos hne]⟩

/-- C1: for the pair (older = Jan 1 @187... in fact heights 120 older,
187 newer) the emitted difference is `67 = newer - older`, while the
claimed `older - newer` is `-67`: the sign convention in the claim is
reversed. -/
theorem C1_counterexample :
    get_deltas [alias_jan15, alias_jan10a] [FieldName.height]
      = [{ from_ := alias_jan10a, to_ := alias_jan15,
           deltas := [(FieldName.height, 67)] }]
    ∧ alias_jan10a.height - alias_jan15.height = -67
    ∧ ((67 : Int) ≠ -67) := by
  decide

/-- C1 (amended): the delta detector emits one Delta per adjacent pair
(newest pair first) whose `from` is the older record and `to` the newer
record; each tracked field appears in the difference mapping exactly when
`newer - older` is nonzero, with that value (`newer - older`, not
`older - newer`); an all-zero pair yields no Delta at all. -/
theorem C1_delta_detector (aliases : List Alias) (fields : List FieldName) :
    get_deltas aliases fields
      = (aliases.zip aliases.tail).filterMap (pair_delta fields)
    ∧ (∀ (newer older : Alias) (f : FieldName) (v : Int),
        (f, v) ∈ delta_fields newer older fields
          ↔ f ∈ fields ∧ v = newer.get f - older.get f ∧ v ≠ 0) :=
  ⟨get_deltas_eq aliases fields, fun _ _ _ _ => mem_delta_fields⟩

/-- C9: at most `n - 1` Deltas for `n` aliases, any tracked field set. -/
theorem C9_delta_count_bound (aliases : List Alias) (fields : List FieldName) :
    (get_deltas aliases fields).length ≤ aliases.length - 1 := by
  rw [get_deltas_eq aliases fields]
  refine le_trans (List.length_filterMap_le _ _) ?_
  rw [List.length_zip, List.length_tail]
  omega

/-- The per-Delta field filtering of `filter_deltas`. -/
def keep_fields (retain : FieldName → Option (Int → Bool))
    (ds : List (FieldName × Int)) : List (FieldName × Int) :=
  ds.filter (fun kv =>
    match retain kv.1 with
    | some p => p kv.2
    | none => true)

/-- Mapping then filtering is a single `filterMap`. -/
theorem map_filter_eq_filterMap (f : α → β) (p : β → Bool) (l : List α) :
    (l.map f).filter p
      = l.filterMap (fun a => if p (f a) then some (f a) else none) := by
  induction l with
  | nil => rfl
  | cons a l ih =>
    simp only [List.map_cons, List.filter_cons, List.filterMap_cons]
    cases h : p (f a) <;> simp [h, ih]

/-- C5: the filter keeps within each Delta exactly the fields whose
predicate holds (fields without a predicate are kept unconditionally),
drops Deltas whose mapping becomes empty — never emitting an empty one —
preserves the order of survivors (it is a `filterMap` over the input),
and under the fixed height policy a delta of 4 is dropped while 5 and -5
are kept. -/
theorem C5_suspicion_filter (deltas : List Delta)
    (retain : FieldName → Option (Int → Bool)) :
    (filter_deltas deltas retain = deltas.filterMap (fun d =>
        if keep_fields retain d.deltas = [] then none
        else some { d with deltas := keep_fields retain d.deltas }))
    ∧ (∀ (kv : FieldName × Int) (ds : List (FieldName × Int)),
        kv ∈ keep_fields retain ds
          ↔ kv ∈ ds ∧ (∀ p, retain kv.1 = some p → p kv.2 = true))
    ∧ (∀ d ∈ filter_deltas deltas retain, d.deltas ≠ [])
    ∧ filter_deltas [⟨alias_jan1, alias_jan15, [(FieldName.height, 4)]⟩]
        height_retain = []
    ∧ filter_deltas [⟨alias_jan1, alias_jan15, [(FieldName.height, 5)]⟩]
        height_retain
        = [⟨alias_jan1, alias_jan15, [(FieldName.height, 5)]⟩]
    ∧ filter_deltas [⟨alias_jan1, alias_jan15, [(FieldName.height, -5)]⟩]
        height_retain
        = [⟨alias_jan1, alias_jan15, [(FieldName.height, -5)]⟩] := by
  refine ⟨?_, ?_, ?_, by decide, by decide, by decide⟩
  · rw [filter_deltas, map_filter_eq_filterMap]
    refine List.filterMap_congr ?_
    intro d _
    by_cases h : keep_fields retain d.deltas = []
    · simp only [keep_fields] at h
      simp [keep_fields, h]
    · simp only [keep_fields] at h
      simp [keep_fields, h]
  · intro kv ds
    simp only [keep_fields, List.mem_filter]
    constructor
    · rintro ⟨hmem, hcond⟩
      refine ⟨hmem, ?_⟩
      intro p hp
      rw [hp] at hcond
      exact hcond
    · rintro ⟨hmem, hcond⟩
      refine ⟨hmem, ?_⟩
      cases hr : retain kv.1 with
      | none => rfl
      | some p => exact hcond p hr
  · intro d hd
    simp only [filter_deltas, List.mem_filter] at hd
    exact of_decide_eq_true hd.2

/-- C5 witness: the filter's surviving Delta for a +5 height change is
nonempty, via the theorem at that concrete input. -/
theorem C5_suspicion_filter_witness :
    ({ from_ := alias_jan1, to_ := alias_jan15,
       deltas := [(FieldName.height, 5)] } : Delta).deltas ≠ [] :=
  (C5_suspicion_filter
      [⟨alias_jan1, alias_jan15, [(FieldName.height, 5)]⟩]
      height_retain).2.2.1 _ (by decide)

/-- Length of the oldest (trailing) run of zero-height entries. -/
def zero_run_len (aliases : List Alias) : Nat :=
  (aliases.reverse.takeWhile (fun a => a.height == 0)).length

/-- The prefix outside the trailing run identified by scanning the
reversed list. -/
theorem take_zero_run (l : List α) (z : α → Bool) :
    l.take (l.length - (l.reverse.takeWhile z).length)
      = (l.reverse.dropWhile z).reverse := by
  have hsplit := List.takeWhile_append_dropWhile (p := z) (l := l.reverse)
  have hl : l = (l.reverse.dropWhile z).reverse
      ++ (l.reverse.takeWhile z).reverse := by
    rw [← List.reverse_append, hsplit, List.reverse_reverse]
  have hlen := congrArg List.length hsplit
  simp only [List.length_append, List.length_reverse] at hlen
  calc l.take (l.length - (l.reverse.takeWhile z).length)
      = ((l.reverse.dropWhile z).reverse
          ++ (l.reverse.takeWhile z).reverse).take
            (l.length - (l.reverse.takeWhile z).length) := by rw [← hl]
    _ = (l.reverse.dropWhile z).reverse :=
        List.take_left' (by simp only [List.length_reverse]; omega)

/-- The trailing run itself, as a suffix of the original list. -/
theorem drop_zero_run (l : List α) (z : α → Bool) :
    l.drop (l.length - (l.reverse.takeWhile z).length)
      = (l.reverse.takeWhile z).reverse := by
  have hsplit := List.takeWhile_append_dropWhile (p := z) (l := l.reverse)
  have hl : l = (l.reverse.dropWhile z).reverse
      ++ (l.reverse.takeWhile z).reverse := by
    rw [← List.reverse_append, hsplit, List.reverse_reverse]
  have hlen := congrArg List.length hsplit
  simp only [List.length_append, List.length_reverse] at hlen
  calc l.drop (l.length - (l.reverse.takeWhile z).length)
      = ((l.reverse.dropWhile z).reverse
          ++ (l.reverse.takeWhile z).reverse).drop
            (l.length - (l.reverse.takeWhile z).length) := by rw [← hl]
    _ = (l.reverse.takeWhile z).reverse :=
        List.drop_left' (by simp only [List.length_reverse]; omega)

/-- In the anchor case, `backfill_heights` is: untouched prefix plus the
trailing zero-run with every height replaced by the anchor's. -/
theorem backfill_anchor (aliases : List Alias) (anchor : Alias)
    (h : aliases.reverse.find? (fun a => a.height != 0) = some anchor) :
    backfill_heights aliases
      = aliases.take (aliases.length - zero_run_len aliases)
        ++ (aliases.drop (aliases.length - zero_run_len aliases)).map
            (fun a => set_height a anchor.height) := by
  simp only [backfill_heights, zero_run_len, h]
  rw [take_zero_run, drop_zero_run, List.map_reverse]

/-- C3: backfill preserves length and order; the empty list maps to the
empty list; an all-zero (or anchorless) input is returned unchanged; and
with an anchor — the oldest nonzero height, found by scanning the
reversed list — the result is the untouched prefix plus the trailing
zero-run, each run entry having only its height replaced by the anchor's;
the entries of that suffix run all carried height `0`. -/
theorem C3_backfill (aliases : List Alias) :
    ((backfill_heights aliases).length = aliases.length)
    ∧ backfill_heights ([] : List Alias) = []
    ∧ ((∀ a ∈ aliases, a.height = 0) → backfill_heights aliases = aliases)
    ∧ (∀ a ∈ aliases.drop (aliases.length - zero_run_len aliases),
        a.height = 0)
    ∧ (∀ anchor : Alias,
        aliases.reverse.find? (fun a => a.height != 0) = some anchor →
        backfill_heights aliases
          = aliases.take (aliases.length - zero_run_len aliases)
            ++ (aliases.drop (aliases.length - zero_run_len aliases)).map
                (fun a => set_height a anchor.height)) := by
  refine ⟨?_, rfl, ?_, ?_, fun anchor h => backfill_anchor aliases anchor h⟩
  · cases hfind : aliases.reverse.find? (fun a => a.height != 0) with
    | none => simp only [backfill_heights, hfind]
    | some anchor =>
      rw [backfill_anchor aliases anchor hfind]
      simp only [List.length_append, List.length_take, List.length_map,
        List.length_drop]
      omega
  · intro hall
    have hfind : aliases.reverse.find? (fun a => a.height != 0) = none := by
      rw [List.find?_eq_none]
      intro x hx
      have hx0 := hall x (List.mem_reverse.mp hx)
      simp [hx0]
    simp only [backfill_heights, hfind]
  · intro a ha
    simp only [zero_run_len] at ha
    rw [drop_zero_run aliases (fun a => a.height == 0)] at ha
    have := List.mem_takeWhile_imp (List.mem_reverse.mp ha)
    exact eq_of_beq this

/-- C3 witness: the characterisation applied to a concrete two-alias
list whose oldest entry has height `0`. -/
theorem C3_backfill_witness :
    backfill_heights [⟨"feb", 2, 3, 4, "x", 70, 10⟩, ⟨"jan", 1, 0, 0, "y", 70, 0⟩]
      = [⟨"feb", 2, 3, 4, "x", 70, 10⟩, ⟨"jan", 1, 0, 0, "y", 70, 0⟩].take
          (([⟨"feb", 2, 3, 4, "x", 70, 10⟩,
             ⟨"jan", 1, 0, 0, "y", 70, 0⟩] : List Alias).length
            - zero_run_len [⟨"feb", 2, 3, 4, "x", 70, 10⟩,
                            ⟨"jan", 1, 0, 0, "y", 70, 0⟩])
        ++ ([⟨"feb", 2, 3, 4, "x", 70, 10⟩, ⟨"jan", 1, 0, 0, "y", 70, 0⟩].drop
              (([⟨"feb", 2, 3, 4, "x", 70, 10⟩,
                 ⟨"jan", 1, 0, 0, "y", 70, 0⟩] : List Alias).length
                - zero_run_len [⟨"feb", 2, 3, 4, "x", 70, 10⟩,
                                ⟨"jan", 1, 0, 0, "y", 70, 0⟩])).map
            (fun a => set_height a (⟨"feb", 2, 3, 4, "x", 70, 10⟩ : Alias).height) :=
  (C3_backfill _).2.2.2.2 ⟨"feb", 2, 3, 4, "x", 70, 10⟩ (by decide)

/-- A list whose last (oldest) entry has nonzero height is left unchanged
by backfill: the trailing zero-run is empty. -/
theorem backfill_last_nonzero (l : List Alias) (a : Alias)
    (hl : l.getLast? = some a) (hn : a.height ≠ 0) :
    backfill_heights l = l := by
  have hrevh : l.reverse.head? = some a := by rw [List.head?_reverse, hl]
  obtain ⟨t, ht⟩ : ∃ t, l.reverse = a :: t := by
    cases hc : l.reverse with
    | nil => rw [hc] at hrevh; exact absurd hrevh (by simp)
    | cons b t =>
      rw [hc] at hrevh
      simp only [List.head?_cons, Option.some.injEq] at hrevh
      exact ⟨t, by rw [hrevh]⟩
  have hz : (a.height == 0) = false := beq_eq_false_iff_ne.mpr hn
  have hnz : ¬ ((fun x : Alias => x.height == 0) a = true) := by simp [hz]
  have hp : (fun x : Alias => x.height != 0) a = true := by simp [bne, hz]
  have hfind : l.reverse.find? (fun x => x.height != 0) = some a := by
    rw [ht]; exact List.find?_cons_of_pos _ hp
  have hrun : zero_run_len l = 0 := by
    simp only [zero_run_len, ht]
    rw [List.takeWhile_cons_of_neg (p := fun x : Alias => x.height == 0) hnz]
    rfl
  rw [backfill_anchor l a hfind, hrun]
  simp

/-- C7: backfill is idempotent — after one pass the oldest entry has a
nonzero height (or no anchor exists at all), so a second pass changes
nothing. -/
theorem C7_backfill_idempotent (aliases : List Alias) :
    backfill_heights (backfill_heights aliases) = backfill_heights aliases := by
  cases hfind : aliases.reverse.find? (fun a => a.height != 0) with
  | none =>
    have h1 : backfill_heights aliases = aliases := by
      simp only [backfill_heights, hfind]
    rw [h1]
    exact h1
  | some anchor =>
    have hanchor : anchor.height ≠ 0 := by
      have := List.find?_some hfind
      simpa [bne] using this
    have hrev : (backfill_heights aliases).reverse
        = (aliases.reverse.takeWhile (fun a => a.height == 0)).map
            (fun a => set_height a anchor.height)
          ++ aliases.reverse.dropWhile (fun a => a.height == 0) := by
      simp only [backfill_heights, hfind]
      rw [List.reverse_append, List.reverse_reverse, List.reverse_reverse]
    obtain ⟨b, hb, hbn⟩ : ∃ b, (backfill_heights aliases).reverse.head? = some b
        ∧ b.height ≠ 0 := by
      rw [hrev]
      cases hT : aliases.reverse.takeWhile (fun a => a.height == 0) with
      | nil =>
        cases hc : aliases.reverse with
        | nil => rw [hc] at hfind; exact absurd hfind (by simp)
        | cons x t =>
          rw [hc] at hT
          have hzx : (x.height == 0) = false := by
            cases hxz : (x.height == 0) with
            | false => rfl
            | true =>
              rw [List.takeWhile_cons_of_pos
                (p := fun a : Alias => a.height == 0) hxz] at hT
              exact absurd hT (by simp)
          rw [List.dropWhile_cons_of_neg
            (p := fun a : Alias => a.height == 0) (by simp [hzx])]
          exact ⟨x, by simp, beq_eq_false_iff_ne.mp hzx⟩
      | cons y T2 =>
        refine ⟨set_height y anchor.height, by simp, ?_⟩
        simpa [set_height] using hanchor
    exact backfill_last_nonzero _ b
      (by rw [List.getLast?_eq_head?_reverse]; exact hb) hbn

/-- A concrete report for the sorting counterexample. -/
def report_dup : ProfileReport := ⟨7, 100, []⟩

/-- C8: sorting a sequence containing the same report twice leaves the
duplicate adjacent and equal, so the output is not strictly ascending by
`(points, zwiftid)`. -/
theorem C8_counterexample :
    sort_descs [report_dup, report_dup] = [report_dup, report_dup]
    ∧ ¬ List.Pairwise (fun a b : ProfileReport =>
        a.zwiftpower_points < b.zwiftpower_points
          ∨ (a.zwiftpower_points = b.zwiftpower_points
              ∧ a.zwiftid < b.zwiftid)) [report_dup, report_dup] := by
  constructor
  · exact List.mergeSort_of_sorted (by decide)
  · decide

/-- C8 (amended): the sorted output is a permutation of the input,
nondecreasing in the lexicographic `(points, zwiftid)` key; when the keys
are pairwise distinct the order is strictly ascending — ties on points
are broken by ascending identifier, never left in input order. -/
theorem C8_sorted_output (descs : List ProfileReport) :
    (sort_descs descs).Perm descs
    ∧ List.Pairwise (fun a b => desc_key_le a b = true) (sort_descs descs)
    ∧ ((descs.map (fun d => (d.zwiftpower_points, d.zwiftid))).Nodup →
        List.Pairwise (fun a b : ProfileReport =>
          a.zwiftpower_points < b.zwiftpower_points
            ∨ (a.zwiftpower_points = b.zwiftpower_points
                ∧ a.zwiftid < b.zwiftid)) (sort_descs descs)) := by
  have htrans : ∀ (a b c : ProfileReport),
      desc_key_le a b → desc_key_le b c → desc_key_le a c := by
    intro a b c hab hbc
    simp only [desc_key_le, decide_eq_true_eq] at *
    omega
  have htotal : ∀ (a b : ProfileReport),
      desc_key_le a b || desc_key_le b a := by
    intro a b
    simp only [desc_key_le, Bool.or_eq_true, decide_eq_true_eq]
    omega
  have hperm : (sort_descs descs).Perm descs :=
    List.mergeSort_perm descs desc_key_le
  have hsorted : List.Pairwise (fun a b => desc_key_le a b = true)
      (sort_descs descs) :=
    List.sorted_mergeSort htrans htotal descs
  refine ⟨hperm, hsorted, ?_⟩
  intro hnodup
  have hnodup2 : ((sort_descs descs).map
      (fun d => (d.zwiftpower_points, d.zwiftid))).Nodup :=
    ((hperm.map _).nodup_iff).mpr hnodup
  have hpairs : (sort_descs descs).Pairwise (fun a b : ProfileReport =>
      (a.zwiftpower_points, a.zwiftid) ≠ (b.zwiftpower_points, b.zwiftid)) := by
    rw [List.Nodup, List.pairwise_map] at hnodup2
    exact hnodup2
  refine (hsorted.and hpairs).imp ?_
  intro a b hab
  obtain ⟨hle, hne⟩ := hab
  simp only [desc_key_le, decide_eq_true_eq] at hle
  simp only [ne_eq, Prod.mk.injEq, not_and] at hne
  omega

/-- C8 witness: a concrete two-report list with distinct keys sorts into
strictly ascending order. -/
theorem C8_sorted_output_witness :
    List.Pairwise (fun a b : ProfileReport =>
        a.zwiftpower_points < b.zwiftpower_points
          ∨ (a.zwiftpower_points = b.zwiftpower_points
              ∧ a.zwiftid < b.zwiftid))
      (sort_descs [⟨2, 10, []⟩, ⟨1, 10, []⟩]) :=
  (C8_sorted_output [⟨2, 10, []⟩, ⟨1, 10, []⟩]).2.2 (by decide)
